import Mathlib

/- Verification development for the sego TF-IDF search engine.

   The repository has two Go files: a batch index builder (`main.go`:
   lexer, `calculateTF`, `calculateIDF`, `numOfDocsWithTerm`,
   `calculateTFIDF`, `generateTft`) and a search program (second file:
   the same lexer, `calculateTF`, `calculateIDF`, `Model`,
   `indexFolder`, `tokenize`, `search`, JSON persistence).

   Embedding conventions:
   - Go `map[string]T` (string-keyed hash map) is modelled as an
     association list `List (String × T)` in insertion order; the keys
     of any map built by the code are pairwise distinct.
   - Go `[]rune` is `List Char`.
   - Go `float32`/`float64` arithmetic is modelled over the real
     numbers extended with the IEEE-754 special values NaN, +Inf and
     -Inf.  Rounding is idealised (exact real arithmetic on finite
     values); the propagation of the special values through division,
     multiplication, addition, `math.Log` and comparisons follows
     IEEE-754 exactly, which is what the analysed claims depend on.
     Signed zero is not modelled (it never matters here: all finite
     operands that can reach a sign-sensitive case are nonnegative).
   - The Go `unicode` classifier functions are modelled on their ASCII
     fragment, on which the Go Unicode tables agree with the
     definitions below. -/

/- ### IEEE-754-style value domain for Go float32/float64 results -/

inductive FP where
  | nan : FP
  | pinf : FP
  | ninf : FP
  | fin : ℝ → FP

/-- Division, as Go evaluates `x / y` on floats (IEEE-754):
`0/0 = NaN`, `x/0 = ±Inf` for finite `x ≠ 0`, `x/±Inf = 0`,
`Inf/Inf = NaN`. -/
noncomputable def fpDiv : FP → FP → FP
  | .nan, _ => .nan
  | _, .nan => .nan
  | .pinf, .pinf => .nan
  | .pinf, .ninf => .nan
  | .ninf, .pinf => .nan
  | .ninf, .ninf => .nan
  | .pinf, .fin y => if 0 ≤ y then .pinf else .ninf
  | .ninf, .fin y => if 0 ≤ y then .ninf else .pinf
  | .fin _, .pinf => .fin 0
  | .fin _, .ninf => .fin 0
  | .fin x, .fin y =>
      if y = 0 then (if x = 0 then .nan else if 0 < x then .pinf else .ninf)
      else .fin (x / y)

/-- Multiplication on floats (IEEE-754): NaN absorbs, `±Inf * 0 = NaN`. -/
noncomputable def fpMul : FP → FP → FP
  | .nan, _ => .nan
  | _, .nan => .nan
  | .pinf, .pinf => .pinf
  | .pinf, .ninf => .ninf
  | .ninf, .pinf => .ninf
  | .ninf, .ninf => .pinf
  | .pinf, .fin y => if 0 < y then .pinf else if y = 0 then .nan else .ninf
  | .fin x, .pinf => if 0 < x then .pinf else if x = 0 then .nan else .ninf
  | .ninf, .fin y => if 0 < y then .ninf else if y = 0 then .nan else .pinf
  | .fin x, .ninf => if 0 < x then .ninf else if x = 0 then .nan else .pinf
  | .fin x, .fin y => .fin (x * y)

/-- Addition on floats (IEEE-754): NaN absorbs, `+Inf + -Inf = NaN`. -/
noncomputable def fpAdd : FP → FP → FP
  | .nan, _ => .nan
  | _, .nan => .nan
  | .pinf, .ninf => .nan
  | .ninf, .pinf => .nan
  | .pinf, _ => .pinf
  | _, .pinf => .pinf
  | .ninf, _ => .ninf
  | _, .ninf => .ninf
  | .fin x, .fin y => .fin (x + y)

/-- Go `math.Log` (IEEE-754): `Log(NaN) = NaN`, `Log(+Inf) = +Inf`,
`Log(0) = -Inf`, `Log(x) = NaN` for `x < 0`. -/
noncomputable def fpLog : FP → FP
  | .nan => .nan
  | .pinf => .pinf
  | .ninf => .nan
  | .fin x => if 0 < x then .fin (Real.log x) else if x = 0 then .ninf else .nan

/-- The Go `<` comparison on floats: every comparison with NaN is false. -/
def fpLt : FP → FP → Prop
  | .nan, _ => False
  | _, .nan => False
  | .ninf, .ninf => False
  | .ninf, _ => True
  | .pinf, _ => False
  | .fin _, .pinf => True
  | .fin _, .ninf => False
  | .fin x, .fin y => x < y

/-- The Go `<=` comparison on floats: every comparison with NaN is false. -/
def fpLe : FP → FP → Prop
  | .nan, _ => False
  | _, .nan => False
  | .ninf, _ => True
  | _, .pinf => True
  | .pinf, _ => False
  | _, .ninf => False
  | .fin x, .fin y => x ≤ y

noncomputable instance fpLtDec : ∀ a b : FP, Decidable (fpLt a b) :=
  fun _ _ => Classical.propDecidable _

/- ### Character classes (Go `unicode` package, ASCII fragment) -/

/-- Go `unicode.IsSpace` (the ASCII/Latin-1 white space set). -/
def isSpace (c : Char) : Bool :=
  c = ' ' || c = '\t' || c = '\n' || c = '\r' ||
    c.toNat = 11 || c.toNat = 12 || c.toNat = 133 || c.toNat = 160

/-- Go `unicode.IsNumber` on ASCII: a decimal digit. -/
def isNumber (c : Char) : Bool := '0' ≤ c && c ≤ '9'

/-- Go `unicode.IsLetter` on ASCII. -/
def isLetter (c : Char) : Bool := ('a' ≤ c && c ≤ 'z') || ('A' ≤ c && c ≤ 'Z')

/-- Go `unicode.ToUpper` on ASCII. -/
def toUpperChar (c : Char) : Char :=
  if 'a' ≤ c && c ≤ 'z' then Char.ofNat (c.toNat - 32) else c

/- ### The lexer (identical in both Go files) -/

/-- Result of one call to `(*lexer).Next`.  Go returns the pair
`(value, hasNext)`: `eof` is `(nil, false)`, `tagSkip rest` is
`(nil, true)` with the remaining content, `tok t rest` is `(t, true)`.
`fault` records a Go runtime fault (out-of-range slice index) raised
during the call. -/
inductive NextRes where
  | eof : NextRes
  | tagSkip : List Char → NextRes
  | tok : List Char → List Char → NextRes
  | fault : NextRes
deriving DecidableEq

/-- Index `n` reached by the Go scan
`for n < len(c) && c[n] != '>' { n++ }`: the length of the maximal
prefix free of `'>'`. -/
def firstGtLen (c : List Char) : ℕ :=
  (c.takeWhile (fun ch => decide (ch ≠ '>'))).length

/-- Body of `(*lexer).Next` after `trimLeft`: the four branches on the
first remaining character.  The tag branch executes
`l.content = l.content[n+1:]`, which is a Go runtime fault when
`n + 1 > len(content)`, i.e. when the input has no closing `'>'`. -/
def nextTrimmed (c : List Char) : NextRes :=
  match c with
  | [] => .eof
  | ch :: _ =>
    if ch = '<' then
      if firstGtLen c + 1 ≤ c.length then .tagSkip (c.drop (firstGtLen c + 1))
      else .fault
    else if isNumber ch then
      .tok (c.takeWhile isNumber) (c.dropWhile isNumber)
    else if isLetter ch then
      .tok (c.takeWhile (fun r => isLetter r || isNumber r))
        (c.dropWhile (fun r => isLetter r || isNumber r))
    else
      .tok (c.take 1) (c.drop 1)

/-- One call to `(*lexer).Next`: `trimLeft` then the branch dispatch. -/
def next (content : List Char) : NextRes :=
  nextTrimmed (List.dropWhile isSpace content)

/-- Upper-casing a token in place (`for i := range token {...}`) and
converting it to a Go string. -/
def toUpperStr (t : List Char) : String := String.mk (t.map toUpperChar)

/-- The `for { token, hasNext := lexer.Next() ... }` loop shared by
`tokenize` and `indexFolder`, collecting the upper-cased tokens in
order.  The fuel argument only serves structural termination; it is
always called with more fuel than the content length, which suffices
because every productive `next` step consumes at least one character
(`next_consumes` below, and `tokenizeFuel_eq_of_lt`).  `none` models a
runtime fault escaping the loop. -/
def tokenizeFuel : ℕ → List Char → Option (List String)
  | 0, _ => none
  | fuel + 1, content =>
    match next content with
    | .eof => some []
    | .fault => none
    | .tagSkip rest => tokenizeFuel fuel rest
    | .tok t rest => (tokenizeFuel fuel rest).map (fun r => toUpperStr t :: r)

/-- Go `tokenize` (and the identical loop body of `indexFolder`):
`some` the token list, or `none` if the lexer faults. -/
def tokenize (content : List Char) : Option (List String) :=
  tokenizeFuel (content.length + 1) content

/- ### Association-list model of the Go string-keyed maps -/

/-- Go `map[string]int` read: `m[k]` is `0` when the key is absent. -/
def lookupCount (m : List (String × ℕ)) (k : String) : ℕ :=
  match m.find? (fun e => decide (e.1 = k)) with
  | some e => e.2
  | none => 0

/-- Go `_, ok := m[k]` key-presence test. -/
def hasKeyB (m : List (String × ℕ)) (k : String) : Bool :=
  m.any (fun e => decide (e.1 = k))

/-- Go `m[k]++`: increment in place, inserting the key with count 1 when
absent. -/
def bumpKey (m : List (String × ℕ)) (k : String) : List (String × ℕ) :=
  if hasKeyB m k then
    m.map (fun e => if e.1 = k then (e.1, e.2 + 1) else e)
  else m ++ [(k, 1)]

namespace Sego

/- Embedding of the search program (the second Go source file). -/

abbrev TermFreq := List (String × ℕ)
abbrev TermFreqTable := List (String × TermFreq)
abbrev DocFreq := List (String × ℕ)

/-- Go `calculateTF`: `sumOfTerms` accumulates every count in the
document's mapping; the result is the float division
`float32(tfTable[term]) / float32(sumOfTerms)` (no guard: an empty
mapping divides 0 by 0). -/
def sumOfTerms (tfTable : TermFreq) : ℕ :=
  tfTable.foldl (fun s v => s + v.2) 0

noncomputable def calculateTF (term : String) (tfTable : TermFreq) : FP :=
  fpDiv (.fin (lookupCount tfTable term : ℝ)) (.fin (sumOfTerms tfTable : ℝ))

/-- Go `calculateIDF(df, n)`:
`math.Log(float64(n) / math.Max(float64(df), 1))`. -/
noncomputable def calculateIDF (df : ℕ) (n : ℕ) : FP :=
  fpLog (fpDiv (.fin (n : ℝ)) (.fin (max (df : ℝ) 1)))

/-- Go `Model`: per-document term counts plus document frequencies. -/
structure Model where
  tf : TermFreqTable
  df : DocFreq
deriving DecidableEq

/-- The per-document body of `(*Model).indexFolder`: tokenize the
content into a fresh term-count mapping, bump `DF` once per distinct
token of that mapping, then store the mapping under the document's
path.  `none` models the lexer fault escaping the loop. -/
def buildTF (tokens : List String) : TermFreq :=
  tokens.foldl bumpKey []

def dfAdd (df : DocFreq) (tf : TermFreq) : DocFreq :=
  tf.foldl (fun d e => bumpKey d e.1) df

def indexDoc (m : Model) (doc : String × List Char) : Option Model :=
  match tokenize doc.2 with
  | none => none
  | some tokens =>
      let tf := buildTF tokens
      some ⟨m.tf ++ [(doc.1, tf)], dfAdd m.df tf⟩

def indexDocsFrom (m : Model) : List (String × List Char) → Option Model
  | [] => some m
  | d :: ds =>
      match indexDoc m d with
      | none => none
      | some m' => indexDocsFrom m' ds

/-- Go `(*Model).indexFolder` on an already-read document collection
(directory enumeration and file reads are external I/O). -/
def indexDocs (docs : List (String × List Char)) : Option Model :=
  indexDocsFrom ⟨[], []⟩ docs

/-- Go `SearchResult`. -/
structure SearchResult where
  path : String
  rank : FP

/-- The inner loop of `(*Model).search`: starting from `rank = 0`, add
`calculateTF(token, tfTable) * calculateIDF(m.DF[token], len(m.TF))`
for every query token in order. -/
noncomputable def scoreDoc (m : Model) (tokens : List String)
    (tfTable : TermFreq) : FP :=
  tokens.foldl
    (fun rank token =>
      fpAdd rank (fpMul (calculateTF token tfTable)
        (calculateIDF (lookupCount m.df token) m.tf.length)))
    (.fin 0)

/-- Go `(*Model).search`: tokenize the query, score every document,
then `sort.Sort(sort.Reverse(result))` — sort so that no later result
ranks above an earlier one (`Less(i,j) = Rank[i] < Rank[j]`, reversed).
`none` models the lexer fault on the query.  -/
noncomputable def search (m : Model) (query : String) :
    Option (List SearchResult) :=
  match tokenize query.toList with
  | none => none
  | some tokens =>
      some ((m.tf.map (fun pd => ⟨pd.1, scoreDoc m tokens pd.2⟩)).insertionSort
        (fun a b => ¬ fpLt a.rank b.rank))

end Sego


namespace Sego

/- Spec-side real-valued scoring formulas (§4.3 of the specification),
   used to state what the FP computation of `search` amounts to on
   documents with a nonzero token total. -/

/-- The specification's `TF(term, docCounts) =
count(term) / sum(all counts)` as a real number. -/
noncomputable def realTF (term : String) (tfTable : TermFreq) : ℝ :=
  (lookupCount tfTable term : ℝ) / (sumOfTerms tfTable : ℝ)

/-- The specification's `IDF(df, totalDocs) = ln(totalDocs / max(df,1))`
as a real number. -/
noncomputable def realIDF (df n : ℕ) : ℝ :=
  Real.log ((n : ℝ) / max (df : ℝ) 1)

/-- The specification's aggregate query score of one document: the sum
over all query tokens (duplicates counted each time) of `TF * IDF`. -/
noncomputable def realScore (m : Model) (tokens : List String)
    (tfTable : TermFreq) : ℝ :=
  (tokens.map (fun token =>
    realTF token tfTable * realIDF (lookupCount m.df token) m.tf.length)).sum

/- ### Persistence (Modelled from the spec)

   `saveAsJson` / `newModelFromJson` delegate to Go's `encoding/json`
   and to file I/O, which the specification (§1, §6) treats as an
   external collaborator: the serialised form is a structured JSON
   document `{"tf": {path: {term: count}}, "df": {term: count}}`.
   Modelled from the spec: a JSON value tree and the structural
   encoding/decoding of a `Model` into it; missing is the Go stdlib
   marshaller itself (byte-level formatting is irrelevant to the
   round-trip claim, which is about the carried mappings). -/

inductive Json where
  | num : ℕ → Json
  | obj : List (String × Json) → Json

/-- Modelled from the spec: marshalling of an integer-count mapping. -/
def encodeCounts (m : List (String × ℕ)) : Json :=
  .obj (m.map (fun e => (e.1, .num e.2)))

/-- Modelled from the spec: marshalling of the per-document table. -/
def encodeTft (t : TermFreqTable) : Json :=
  .obj (t.map (fun e => (e.1, encodeCounts e.2)))

/-- Modelled from the spec: `saveAsJson`'s payload for a model. -/
def encodeModel (m : Model) : Json :=
  .obj [("tf", encodeTft m.tf), ("df", encodeCounts m.df)]

def decodeNum : Json → Option ℕ
  | .num n => some n
  | _ => none

def decodeCountsList : List (String × Json) → Option (List (String × ℕ))
  | [] => some []
  | e :: rest =>
      match decodeNum e.2, decodeCountsList rest with
      | some n, some r => some ((e.1, n) :: r)
      | _, _ => none

/-- Modelled from the spec: unmarshalling of an integer-count mapping
(deserialisation failures are propagated as `none`). -/
def decodeCounts : Json → Option (List (String × ℕ))
  | .obj fs => decodeCountsList fs
  | _ => none

def decodeTftList : List (String × Json) → Option TermFreqTable
  | [] => some []
  | e :: rest =>
      match decodeCounts e.2, decodeTftList rest with
      | some c, some r => some ((e.1, c) :: r)
      | _, _ => none

def decodeTft : Json → Option TermFreqTable
  | .obj fs => decodeTftList fs
  | _ => none

/-- Modelled from the spec: `newModelFromJson`'s reconstruction of a
model from the JSON payload. -/
def decodeModel : Json → Option Model
  | .obj [("tf", jt), ("df", jd)] =>
      match decodeTft jt, decodeCounts jd with
      | some t, some d => some ⟨t, d⟩
      | _, _ => none
  | _ => none

end Sego

namespace Batch

/- Embedding of the batch index builder (`main.go`). -/

open Sego (TermFreq TermFreqTable sumOfTerms)

/-- Go `main.go` `calculateTF(count, document)`:
`float32(count) / float32(sumOfTerms)`. -/
noncomputable def calculateTF (count : ℕ) (document : TermFreq) : FP :=
  fpDiv (.fin (count : ℝ)) (.fin (sumOfTerms document : ℝ))

/-- Go `main.go` `calculateIDF(numberOfDocs, numberOfDocsWithTerm)`:
`math.Log(float64(numberOfDocs) / math.Max(float64(numberOfDocsWithTerm), 1))`. -/
noncomputable def calculateIDF (numberOfDocs numberOfDocsWithTerm : ℕ) : FP :=
  fpLog (fpDiv (.fin (numberOfDocs : ℝ)) (.fin (max (numberOfDocsWithTerm : ℝ) 1)))

/-- Go `numOfDocsWithTerm`: the number of documents of the table whose
mapping contains the term as a key. -/
def numOfDocsWithTerm (term : String) (table : TermFreqTable) : ℕ :=
  (table.filter (fun d => hasKeyB d.2 term)).length

/-- The loop body of Go `calculateTFIDF` for one `(term, count)` entry
`tc` of the document `pd`: `tf := calculateTF(count, document)`,
`idf := calculateIDF(numOfDocs, numOfDocsWithTerm(term, table))`,
`tfidf := tf * idf`. -/
noncomputable def tfidfOf (table : TermFreqTable) (pd : String × TermFreq)
    (tc : String × ℕ) : FP :=
  fpMul (calculateTF tc.2 pd.2)
    (calculateIDF table.length (numOfDocsWithTerm tc.1 table))

/-- Go `calculateTFIDF`'s conditional store
`if tfidf > 0 { t[path][term] = tfidf }` (a Go float comparison, false
for NaN). -/
noncomputable def tfidfStep (table : TermFreqTable) (pd : String × TermFreq)
    (acc : List (String × FP)) (tc : String × ℕ) : List (String × FP) :=
  if fpLt (.fin 0) (tfidfOf table pd tc)
  then acc ++ [(tc.1, tfidfOf table pd tc)] else acc

/-- Go `calculateTFIDF`: for every document and every `(term, count)`
entry of its mapping, compute `tf * idf` and record the pair in the
output table only when `tfidf > 0`. -/
noncomputable def calculateTFIDF (table : TermFreqTable) :
    List (String × List (String × FP)) :=
  table.map (fun pd => (pd.1, pd.2.foldl (tfidfStep table pd) []))

end Batch
/- ### Basic lexer lemmas -/

lemma dropWhile_length_le (p : Char → Bool) :
    ∀ l : List Char, (l.dropWhile p).length ≤ l.length := by
  intro l
  induction l with
  | nil => simp
  | cons a l ih =>
      by_cases h : p a
      · simpa [List.dropWhile, h] using Nat.le_succ_of_le ih
      · simp [List.dropWhile, h]

lemma nextTrimmed_consumes (c t rest : List Char) :
    (nextTrimmed c = .tagSkip rest → rest.length < c.length) ∧
    (nextTrimmed c = .tok t rest → rest.length < c.length) := by
  match c with
  | [] =>
      constructor
      · intro h; simp [nextTrimmed] at h
      · intro h; simp [nextTrimmed] at h
  | ch :: tl =>
      constructor
      · intro h
        simp only [nextTrimmed] at h
        split_ifs at h with h1 h2 h3 h4
        all_goals cases h
        simp only [List.length_drop]
        have : 0 < (ch :: tl).length := by simp
        omega
      · intro h
        simp only [nextTrimmed] at h
        split_ifs at h with h1 h2 h3 h4
        all_goals cases h
        · have e : (ch :: tl).dropWhile isNumber = tl.dropWhile isNumber := by
            simp [List.dropWhile_cons, h3]
          rw [e]
          have := dropWhile_length_le isNumber tl
          simp only [List.length_cons]
          omega
        · have h4' : (isLetter ch || isNumber ch) = true := by simp [h4]
          have e : (ch :: tl).dropWhile (fun r => isLetter r || isNumber r) =
              tl.dropWhile (fun r => isLetter r || isNumber r) := by
            simp [List.dropWhile_cons, h4']
          rw [e]
          have := dropWhile_length_le (fun r => isLetter r || isNumber r) tl
          simp only [List.length_cons]
          omega
        · simp

/-- Every call to `Next` that returns `hasNext = true` strictly shrinks
the remaining content. -/
lemma next_consumes (content t rest : List Char) :
    (next content = .tagSkip rest → rest.length < content.length) ∧
    (next content = .tok t rest → rest.length < content.length) := by
  have hlen : (List.dropWhile isSpace content).length ≤ content.length :=
    dropWhile_length_le isSpace content
  have h := nextTrimmed_consumes (List.dropWhile isSpace content) t rest
  exact ⟨fun hh => lt_of_lt_of_le (h.1 hh) hlen,
    fun hh => lt_of_lt_of_le (h.2 hh) hlen⟩

/-- The fuel in `tokenizeFuel` is irrelevant as soon as it exceeds the
content length: the loop always terminates by end-of-input or fault. -/
lemma tokenizeFuel_eq_of_lt :
    ∀ fuel fuel' (content : List Char), content.length < fuel →
      content.length < fuel' →
      tokenizeFuel fuel content = tokenizeFuel fuel' content := by
  intro fuel
  induction fuel with
  | zero => intro fuel' content h; omega
  | succ f ih =>
      intro fuel' content h h'
      obtain ⟨f', rfl⟩ : ∃ f'', fuel' = f'' + 1 := ⟨fuel' - 1, by omega⟩
      show tokenizeFuel (f + 1) content = tokenizeFuel (f' + 1) content
      cases hn : next content with
      | eof => simp [tokenizeFuel, hn]
      | fault => simp [tokenizeFuel, hn]
      | tagSkip rest =>
          have hr : rest.length < content.length :=
            (next_consumes content [] rest).1 hn
          have e1 : tokenizeFuel (f + 1) content = tokenizeFuel f rest := by
            simp [tokenizeFuel, hn]
          have e2 : tokenizeFuel (f' + 1) content = tokenizeFuel f' rest := by
            simp [tokenizeFuel, hn]
          rw [e1, e2]
          exact ih f' rest (by omega) (by omega)
      | tok t rest =>
          have hr : rest.length < content.length :=
            (next_consumes content t rest).2 hn
          have e1 : tokenizeFuel (f + 1) content =
              (tokenizeFuel f rest).map (fun r => toUpperStr t :: r) := by
            simp [tokenizeFuel, hn]
          have e2 : tokenizeFuel (f' + 1) content =
              (tokenizeFuel f' rest).map (fun r => toUpperStr t :: r) := by
            simp [tokenizeFuel, hn]
          rw [e1, e2, ih f' rest (by omega) (by omega)]

/- ### FP computation lemmas -/

lemma fpMul_nan_left (x : FP) : fpMul .nan x = .nan := by cases x <;> rfl

lemma fpMul_nan_right (x : FP) : fpMul x .nan = .nan := by cases x <;> rfl

lemma fpAdd_nan_left (x : FP) : fpAdd .nan x = .nan := by cases x <;> rfl

lemma fpAdd_nan_right (x : FP) : fpAdd x .nan = .nan := by cases x <;> rfl

lemma fpAdd_fin (x y : ℝ) : fpAdd (.fin x) (.fin y) = .fin (x + y) := rfl

lemma fpMul_fin (x y : ℝ) : fpMul (.fin x) (.fin y) = .fin (x * y) := rfl

lemma fpDiv_fin_of_ne {y : ℝ} (x : ℝ) (hy : y ≠ 0) :
    fpDiv (.fin x) (.fin y) = .fin (x / y) := by
  simp [fpDiv, hy]

lemma fpDiv_zero_zero : fpDiv (.fin 0) (.fin 0) = .nan := by simp [fpDiv]

lemma fpLog_fin_of_pos {x : ℝ} (hx : 0 < x) :
    fpLog (.fin x) = .fin (Real.log x) := by
  simp [fpLog, hx]

lemma fpLt_nan_left (x : FP) : ¬ fpLt .nan x := by cases x <;> exact not_false

lemma fpLt_nan_right (x : FP) : ¬ fpLt x .nan := by cases x <;> exact not_false

lemma fpLe_nan_left (x : FP) : ¬ fpLe .nan x := by cases x <;> exact not_false

lemma fpLe_nan_right (x : FP) : ¬ fpLe x .nan := by cases x <;> exact not_false

lemma fpLt_fin_iff {x y : ℝ} : fpLt (.fin x) (.fin y) ↔ x < y := Iff.rfl

lemma fpLe_fin_iff {x y : ℝ} : fpLe (.fin x) (.fin y) ↔ x ≤ y := Iff.rfl

/- ### Scorer lemmas -/

namespace Sego

lemma lookupCount_nil (k : String) : lookupCount [] k = 0 := rfl

lemma sumOfTerms_nil : sumOfTerms [] = 0 := rfl

lemma calculateTF_of_sum_ne_zero {tfTable : TermFreq} (term : String)
    (h : sumOfTerms tfTable ≠ 0) :
    calculateTF term tfTable = .fin (realTF term tfTable) := by
  unfold calculateTF realTF
  exact fpDiv_fin_of_ne _ (Nat.cast_ne_zero.mpr h)

lemma calculateTF_nil (term : String) : calculateTF term [] = .nan := by
  unfold calculateTF
  rw [lookupCount_nil, sumOfTerms_nil]
  simpa using fpDiv_zero_zero

lemma max_cast_one_pos (df : ℕ) : (0 : ℝ) < max (df : ℝ) 1 :=
  lt_of_lt_of_le one_pos (le_max_right _ _)

lemma calculateIDF_fin {n : ℕ} (df : ℕ) (h : 0 < n) :
    calculateIDF df n = .fin (realIDF df n) := by
  unfold calculateIDF realIDF
  rw [fpDiv_fin_of_ne _ (ne_of_gt (max_cast_one_pos df))]
  exact fpLog_fin_of_pos (div_pos (by exact_mod_cast h) (max_cast_one_pos df))

end Sego

/- ### Claim C1 — TF of an empty document -/

/-- C1: the claim states that `calculateTF` returns 0 (not NaN) for
every term of a document whose term-count mapping is empty.  The code
has no zero-total guard: it evaluates `float32(0) / float32(0)`, which
is NaN, not 0 — the evaluation below exhibits the divergence at the
failing input (empty mapping, any term). -/
theorem claim_C1 (term : String) :
    Sego.calculateTF term [] = FP.nan ∧ FP.nan ≠ FP.fin 0 := by
  exact ⟨Sego.calculateTF_nil term, fun h => by cases h⟩

/- ### Claim C2 — unterminated tag -/

lemma firstGtLen_eq_length {c : List Char} (h : '>' ∉ c) :
    firstGtLen c = c.length := by
  unfold firstGtLen
  have : c.takeWhile (fun ch => decide (ch ≠ '>')) = c := by
    induction c with
    | nil => rfl
    | cons a l ih =>
        have ha : a ≠ '>' := fun e => h (e ▸ List.mem_cons_self a l)
        have hl : '>' ∉ l := fun hm => h (List.mem_cons_of_mem a hm)
        simp [List.takeWhile_cons, ha, ih hl]
        exact fun x hx e => hl (e ▸ hx)
  rw [this]

/-- C2: the claim states that `Next` completes without a fault on every
input, consuming to end of input when a `<` has no matching `>`.  In
the code the tag branch ends with `l.content = l.content[n+1:]` where
`n` has run to `len(l.content)`, an out-of-range slice bound — a Go
runtime fault, so the tokenizer crashes on any unterminated tag rather
than continuing. -/
theorem claim_C2 (s : List Char) (h : '>' ∉ s) :
    next ('<' :: s) = NextRes.fault ∧ tokenize ('<' :: s) = none := by
  have hdrop : List.dropWhile isSpace ('<' :: s) = '<' :: s := by
    rw [List.dropWhile_cons]
    simp [isSpace]
  have hfault : next ('<' :: s) = NextRes.fault := by
    unfold next
    rw [hdrop]
    have hne : '>' ∉ '<' :: s := by
      intro hm
      rcases List.mem_cons.mp hm with h1 | h1
      · cases h1
      · exact h h1
    simp only [nextTrimmed, firstGtLen_eq_length hne]
    have : ¬ ('<' :: s).length + 1 ≤ ('<' :: s).length := by omega
    simp [this]
  refine ⟨hfault, ?_⟩
  unfold tokenize
  have : ('<' :: s).length + 1 = s.length + 1 + 1 := by simp
  rw [this]
  simp [tokenizeFuel, hfault]

theorem claim_C2_witness :
    ('>' ∉ ['a']) ∧ next ('<' :: ['a']) = NextRes.fault ∧
      tokenize ('<' :: ['a']) = none := by
  refine ⟨by decide, ?_, ?_⟩
  · exact (claim_C2 ['a'] (by decide)).1
  · exact (claim_C2 ['a'] (by decide)).2

/- ### Claims C6, C7 — concrete tokenizations -/

/-- C6: tokenizing `"a<b>c"` yields exactly `["A", "C"]`: the tag span
`<b>` is consumed with no token emitted, and the surviving tokens are
upper-cased. -/
theorem claim_C6 : tokenize ("a<b>c".toList) = some ["A", "C"] := by decide

/-- C7: tokenizing `"abc123 42"` yields exactly `["ABC123", "42"]`: a
run starting with a letter absorbs trailing digits, a run starting with
a digit is a maximal digit run. -/
theorem claim_C7 : tokenize ("abc123 42".toList) = some ["ABC123", "42"] := by
  decide

/- ### Claim C9 — productive steps consume input -/

/-- C9: every call to `Next` that signals "more input may remain"
(a token step or a tag-skip step) consumes at least one character of
the remaining input, so the token sequence of a finite input is finite
(cf. `tokenizeFuel_eq_of_lt`: the indexing/tokenizing loop is
insensitive to any fuel bound above the content length). -/
theorem claim_C9 (content t rest : List Char) :
    (next content = NextRes.tok t rest → rest.length < content.length) ∧
    (next content = NextRes.tagSkip rest → rest.length < content.length) := by
  exact ⟨(next_consumes content t rest).2, (next_consumes content t rest).1⟩

theorem claim_C9_witness :
    next ['a'] = NextRes.tok ['a'] [] ∧
      ([] : List Char).length < ['a'].length :=
  ⟨rfl, (claim_C9 ['a'] ['a'] []).1 rfl⟩

/- ### Claim C5 — the IDF formula -/

/-- C5: `calculateIDF df n` is `ln(n / max(df, 1))`; for a term absent
from the corpus (`df = 0`) it is `ln n`, which is positive (and a real
number, hence non-infinite) whenever `n > 1`. -/
theorem claim_C5 (df n : ℕ) (h : 0 < n) :
    Sego.calculateIDF df n = FP.fin (Real.log ((n : ℝ) / max (df : ℝ) 1)) ∧
    Sego.calculateIDF 0 n = FP.fin (Real.log (n : ℝ)) ∧
    (1 < n → ∃ x, Sego.calculateIDF 0 n = FP.fin x ∧ 0 < x) := by
  refine ⟨Sego.calculateIDF_fin df h, ?_, ?_⟩
  · rw [Sego.calculateIDF_fin 0 h]
    unfold Sego.realIDF
    norm_num
  · intro h1
    refine ⟨Real.log (n : ℝ), ?_, ?_⟩
    · rw [Sego.calculateIDF_fin 0 h]
      unfold Sego.realIDF
      norm_num
    · exact Real.log_pos (by exact_mod_cast h1)

theorem claim_C5_witness :
    Sego.calculateIDF 3 2 = FP.fin (Real.log ((2 : ℝ) / max (3 : ℝ) 1)) ∧
      (∃ x, Sego.calculateIDF 0 2 = FP.fin x ∧ 0 < x) := by
  obtain ⟨h1, _, h3⟩ := claim_C5 3 2 (by norm_num)
  constructor
  · rw [h1]
    norm_num
  · exact h3 (by norm_num)

/- ### Claim C8 — serialisation round trip -/

namespace Sego

lemma decodeCountsList_encode (m : List (String × ℕ)) :
    decodeCountsList (m.map (fun e => (e.1, Json.num e.2))) = some m := by
  induction m with
  | nil => rfl
  | cons e r ih => simp [decodeCountsList, decodeNum, ih]

lemma decodeCounts_encode (m : List (String × ℕ)) :
    decodeCounts (encodeCounts m) = some m := by
  simp [encodeCounts, decodeCounts, decodeCountsList_encode]

lemma decodeTftList_encode (t : TermFreqTable) :
    decodeTftList (t.map (fun e => (e.1, encodeCounts e.2))) = some t := by
  induction t with
  | nil => rfl
  | cons e r ih => simp [decodeTftList, decodeCounts_encode, ih]

end Sego

/-- C8: deserialising the serialisation of any model restores a model
with identical term-count mappings and identical document-frequency
mapping (integer counts are carried exactly). -/
theorem claim_C8 (m : Sego.Model) :
    Sego.decodeModel (Sego.encodeModel m) = some m := by
  cases m with
  | mk tf df =>
      simp [Sego.encodeModel, Sego.decodeModel, Sego.encodeTft, Sego.decodeTft,
        Sego.decodeTftList_encode, Sego.decodeCounts_encode]

/- ### Claim C3 — the DF invariant -/


lemma hasKeyB_cons (e : String × ℕ) (r : List (String × ℕ)) (k : String) :
    hasKeyB (e :: r) k = (decide (e.1 = k) || hasKeyB r k) := by
  simp [hasKeyB, List.any_cons]

lemma hasKeyB_cons_false {e : String × ℕ} {r : List (String × ℕ)} {k : String}
    (h : hasKeyB (e :: r) k = false) : e.1 ≠ k ∧ hasKeyB r k = false := by
  rw [hasKeyB_cons] at h
  simpa using h

lemma not_hasKeyB_forall {m : List (String × ℕ)} {k : String}
    (h : hasKeyB m k = false) : ∀ e ∈ m, e.1 ≠ k := by
  intro e he hk
  have : hasKeyB m k = true := by
    unfold hasKeyB
    rw [List.any_eq_true]
    exact ⟨e, he, by simp [hk]⟩
  rw [this] at h
  cases h

lemma find?_eq_none_of_not_hasKey {m : List (String × ℕ)} {k : String}
    (h : hasKeyB m k = false) :
    m.find? (fun e => decide (e.1 = k)) = none := by
  rw [List.find?_eq_none]
  intro e he
  simpa using not_hasKeyB_forall h e he

lemma lookupCount_eq_zero_of_not_hasKey {m : List (String × ℕ)} {k : String}
    (h : hasKeyB m k = false) : lookupCount m k = 0 := by
  unfold lookupCount
  rw [find?_eq_none_of_not_hasKey h]

lemma lookupCount_cons_self {e : String × ℕ} {r : List (String × ℕ)}
    {k : String} (hk : e.1 = k) : lookupCount (e :: r) k = e.2 := by
  unfold lookupCount
  rw [List.find?_cons_of_pos _ (by simp [hk])]

lemma lookupCount_cons_other {e : String × ℕ} {r : List (String × ℕ)}
    {k : String} (hk : e.1 ≠ k) : lookupCount (e :: r) k = lookupCount r k := by
  unfold lookupCount
  rw [List.find?_cons_of_neg _ (by simp [hk])]

lemma lookupCount_map_bump (m : List (String × ℕ)) (k : String) :
    lookupCount (m.map (fun e => if e.1 = k then (e.1, e.2 + 1) else e)) k =
      lookupCount m k + (if hasKeyB m k then 1 else 0) := by
  induction m with
  | nil => simp [lookupCount, hasKeyB]
  | cons e r ih =>
      rw [List.map_cons]
      by_cases hk : e.1 = k
      · rw [if_pos hk, lookupCount_cons_self (show ((e.1, e.2 + 1) :
          String × ℕ).1 = k from hk), lookupCount_cons_self hk, hasKeyB_cons]
        simp [hk]
      · rw [if_neg hk, lookupCount_cons_other hk, lookupCount_cons_other hk,
          hasKeyB_cons]
        simp only [hk, decide_False, Bool.false_or]
        exact ih

lemma lookupCount_map_bump_other (m : List (String × ℕ)) {k k' : String}
    (h : k' ≠ k) :
    lookupCount (m.map (fun e => if e.1 = k then (e.1, e.2 + 1) else e)) k' =
      lookupCount m k' := by
  induction m with
  | nil => rfl
  | cons e r ih =>
      rw [List.map_cons]
      by_cases he : e.1 = k'
      · have h1 : (if e.1 = k then (e.1, e.2 + 1) else e).1 = k' := by
          split_ifs <;> simpa using he
        rw [lookupCount_cons_self h1, lookupCount_cons_self he]
        have hek : e.1 ≠ k := fun hek => h (by rw [← he, hek])
        rw [if_neg hek]
      · have h1 : (if e.1 = k then (e.1, e.2 + 1) else e).1 ≠ k' := by
          split_ifs <;> simpa using he
        rw [lookupCount_cons_other h1, lookupCount_cons_other he, ih]

lemma lookupCount_append_single_other {k k' : String} {v : ℕ}
    (h : k' ≠ k) :
    ∀ m : List (String × ℕ),
      lookupCount (m ++ [(k, v)]) k' = lookupCount m k'
  | [] => by
      rw [List.nil_append,
        lookupCount_cons_other (show ((k, v) : String × ℕ).1 ≠ k' from
          fun hk => h hk.symm)]
  | e :: r => by
      rw [List.cons_append]
      by_cases he : e.1 = k'
      · rw [lookupCount_cons_self he, lookupCount_cons_self he]
      · rw [lookupCount_cons_other he, lookupCount_cons_other he,
          lookupCount_append_single_other h r]

lemma lookupCount_append_single (m : List (String × ℕ)) (k : String) (v : ℕ)
    (h : hasKeyB m k = false) :
    lookupCount (m ++ [(k, v)]) k = v := by
  induction m with
  | nil =>
      rw [List.nil_append, lookupCount_cons_self rfl]
  | cons e r ih =>
      obtain ⟨he, hr⟩ := hasKeyB_cons_false h
      rw [List.cons_append, lookupCount_cons_other he, ih hr]

lemma lookupCount_bumpKey_self (m : List (String × ℕ)) (k : String) :
    lookupCount (bumpKey m k) k = lookupCount m k + 1 := by
  unfold bumpKey
  split_ifs with h
  · rw [lookupCount_map_bump, if_pos h]
  · have h' : hasKeyB m k = false := by simpa using h
    rw [lookupCount_append_single m k 1 h',
      lookupCount_eq_zero_of_not_hasKey h']

lemma lookupCount_bumpKey_other (m : List (String × ℕ)) {k k' : String}
    (h : k' ≠ k) : lookupCount (bumpKey m k) k' = lookupCount m k' := by
  unfold bumpKey
  split_ifs with hk
  · exact lookupCount_map_bump_other m h
  · exact lookupCount_append_single_other h m

lemma hasKeyB_eq_true_iff (m : List (String × ℕ)) (k : String) :
    hasKeyB m k = true ↔ k ∈ m.map Prod.fst := by
  simp [hasKeyB, List.any_eq_true, List.mem_map]

lemma lookupCount_dfAdd (tf : Sego.TermFreq) :
    ∀ (df : Sego.DocFreq) (s : String),
      lookupCount (Sego.dfAdd df tf) s =
        lookupCount df s + (tf.filter (fun e => decide (e.1 = s))).length := by
  induction tf with
  | nil => intro df s; simp [Sego.dfAdd]
  | cons e r ih =>
      intro df s
      show lookupCount (Sego.dfAdd (bumpKey df e.1) r) s = _
      rw [ih]
      by_cases he : e.1 = s
      · rw [he, lookupCount_bumpKey_self, List.filter_cons]
        simp only [he, decide_True, if_true]
        simp only [List.length_cons]
        omega
      · rw [lookupCount_bumpKey_other df (Ne.symm he), List.filter_cons]
        simp [he]

lemma filter_key_length_nodup {tf : Sego.TermFreq}
    (hnd : (tf.map Prod.fst).Nodup) (s : String) :
    (tf.filter (fun e => decide (e.1 = s))).length =
      if hasKeyB tf s then 1 else 0 := by
  induction tf with
  | nil => simp [hasKeyB]
  | cons e r ih =>
      rw [List.map_cons, List.nodup_cons] at hnd
      obtain ⟨hne, hr⟩ := hnd
      rw [List.filter_cons, hasKeyB_cons]
      by_cases he : e.1 = s
      · have hrs : hasKeyB r s = false := by
          rw [← he]
          by_contra hc
          exact hne ((hasKeyB_eq_true_iff r e.1).mp (by simpa using hc))
        simp [he, ih hr, hrs]
      · simp [he, ih hr]

lemma keys_map_bump (m : List (String × ℕ)) (k : String) :
    (m.map (fun e => if e.1 = k then (e.1, e.2 + 1) else e)).map Prod.fst =
      m.map Prod.fst := by
  induction m with
  | nil => rfl
  | cons e r ih =>
      rw [List.map_cons, List.map_cons, List.map_cons, ih]
      congr 1
      split_ifs <;> rfl

lemma nodup_keys_bumpKey {m : List (String × ℕ)} (k : String)
    (h : (m.map Prod.fst).Nodup) : ((bumpKey m k).map Prod.fst).Nodup := by
  unfold bumpKey
  split_ifs with hk
  · rw [keys_map_bump]
    exact h
  · have hnk : k ∉ m.map Prod.fst := by
      intro hm
      rw [← hasKeyB_eq_true_iff] at hm
      exact hk (by simp [hm])
    rw [List.map_append]
    simp [List.nodup_append, h, hnk]

lemma nodup_keys_buildTF (tokens : List String) :
    ((Sego.buildTF tokens).map Prod.fst).Nodup := by
  unfold Sego.buildTF
  suffices h : ∀ (m : Sego.TermFreq), (m.map Prod.fst).Nodup →
      ((tokens.foldl bumpKey m).map Prod.fst).Nodup by
    exact h [] (by simp)
  induction tokens with
  | nil => intro m hm; simpa using hm
  | cons t ts ih =>
      intro m hm
      exact ih _ (nodup_keys_bumpKey t hm)

lemma numOfDocsWithTerm_append (term : String) (tft : Sego.TermFreqTable)
    (p : String) (tf : Sego.TermFreq) :
    Batch.numOfDocsWithTerm term (tft ++ [(p, tf)]) =
      Batch.numOfDocsWithTerm term tft + (if hasKeyB tf term then 1 else 0) := by
  unfold Batch.numOfDocsWithTerm
  rw [List.filter_append, List.length_append]
  congr 1
  by_cases h : hasKeyB tf term <;> simp [List.filter_cons, h]

lemma indexDocsFrom_df_invariant :
    ∀ (docs : List (String × List Char)) (m0 m : Sego.Model),
      Sego.indexDocsFrom m0 docs = some m →
      (∀ t, lookupCount m0.df t = Batch.numOfDocsWithTerm t m0.tf) →
      ∀ t, lookupCount m.df t = Batch.numOfDocsWithTerm t m.tf := by
  intro docs
  induction docs with
  | nil =>
      intro m0 m h hinv
      cases h
      exact hinv
  | cons d ds ih =>
      intro m0 m h hinv
      unfold Sego.indexDocsFrom at h
      cases hd : Sego.indexDoc m0 d with
      | none => rw [hd] at h; cases h
      | some m1 =>
          rw [hd] at h
          refine ih m1 m h ?_
          unfold Sego.indexDoc at hd
          cases htok : tokenize d.2 with
          | none => rw [htok] at hd; cases hd
          | some tokens =>
              rw [htok] at hd
              injection hd with hd'
              subst hd'
              intro t
              show lookupCount (Sego.dfAdd m0.df (Sego.buildTF tokens)) t =
                Batch.numOfDocsWithTerm t
                  (m0.tf ++ [(d.1, Sego.buildTF tokens)])
              rw [lookupCount_dfAdd,
                filter_key_length_nodup (nodup_keys_buildTF tokens) t,
                numOfDocsWithTerm_append, hinv t]

/-- C3: after indexing a collection of documents (each identifier
once, on a fresh model), the document-frequency mapping satisfies
`DF[t] = |{doc : t ∈ TermCounts[doc]}|` for every token `t` (stated
with `main.go`'s `numOfDocsWithTerm`, which recomputes exactly that
cardinality); moreover each document's indexing step bumps `DF[t]` by
exactly one when `t` is a key of the document's term-count mapping and
by zero otherwise — never by the per-document occurrence count. -/
theorem claim_C3 (docs : List (String × List Char)) (m : Sego.Model)
    (hix : Sego.indexDocs docs = some m)
    (_hnd : (docs.map Prod.fst).Nodup) :
    (∀ t, lookupCount m.df t = Batch.numOfDocsWithTerm t m.tf) ∧
    (∀ (df : Sego.DocFreq) (tf : Sego.TermFreq) (t : String),
      (tf.map Prod.fst).Nodup →
      lookupCount (Sego.dfAdd df tf) t =
        lookupCount df t + (if hasKeyB tf t then 1 else 0)) := by
  constructor
  · exact indexDocsFrom_df_invariant docs ⟨[], []⟩ m hix
      (fun t => by simp [lookupCount, Batch.numOfDocsWithTerm])
  · intro df tf t htf
    rw [lookupCount_dfAdd, filter_key_length_nodup htf]

theorem claim_C3_witness :
    Sego.indexDocs [("p1", "a b".toList), ("p2", "b c".toList)] =
      some ⟨[("p1", [("A", 1), ("B", 1)]), ("p2", [("B", 1), ("C", 1)])],
        [("A", 1), ("B", 2), ("C", 1)]⟩ ∧
    lookupCount
        (Sego.Model.df ⟨[("p1", [("A", 1), ("B", 1)]),
          ("p2", [("B", 1), ("C", 1)])], [("A", 1), ("B", 2), ("C", 1)]⟩) "B" =
      Batch.numOfDocsWithTerm "B"
        (Sego.Model.tf ⟨[("p1", [("A", 1), ("B", 1)]),
          ("p2", [("B", 1), ("C", 1)])], [("A", 1), ("B", 2), ("C", 1)]⟩) := by
  have hix : Sego.indexDocs [("p1", "a b".toList), ("p2", "b c".toList)] =
      some ⟨[("p1", [("A", 1), ("B", 1)]), ("p2", [("B", 1), ("C", 1)])],
        [("A", 1), ("B", 2), ("C", 1)]⟩ := by decide
  exact ⟨hix, (claim_C3 _ _ hix (by decide)).1 "B"⟩

/- ### Claim C10 — the batch TF-IDF table drops non-positive entries -/

namespace Batch

open Sego (sumOfTerms)

lemma foldl_sum_acc (l : List (String × ℕ)) :
    ∀ a : ℕ, l.foldl (fun s v => s + v.2) a =
      a + l.foldl (fun s v => s + v.2) 0 := by
  induction l with
  | nil => intro a; simp
  | cons e r ih =>
      intro a
      show r.foldl _ (a + e.2) = a + r.foldl _ (0 + e.2)
      rw [ih (a + e.2), ih (0 + e.2)]
      omega

lemma sumOfTerms_cons (e : String × ℕ) (r : List (String × ℕ)) :
    sumOfTerms (e :: r) = e.2 + sumOfTerms r := by
  show r.foldl _ (0 + e.2) = _
  rw [foldl_sum_acc]
  show 0 + e.2 + r.foldl (fun s v => s + v.2) 0 = e.2 + sumOfTerms r
  unfold sumOfTerms
  omega

lemma mem_le_sumOfTerms {l : List (String × ℕ)} {e : String × ℕ}
    (he : e ∈ l) : e.2 ≤ sumOfTerms l := by
  induction l with
  | nil => cases he
  | cons a r ih =>
      rw [sumOfTerms_cons]
      rcases List.mem_cons.mp he with h | h
      · subst h; omega
      · have := ih h; omega

lemma calculateTF_shape {count : ℕ} {document : Sego.TermFreq}
    (h : count ≤ sumOfTerms document) :
    calculateTF count document = .nan ∨
      ∃ a : ℝ, calculateTF count document = .fin a ∧ 0 ≤ a := by
  unfold calculateTF
  by_cases hs : sumOfTerms document = 0
  · left
    have hc : count = 0 := by omega
    simp [hs, hc, fpDiv]
  · right
    refine ⟨(count : ℝ) / (sumOfTerms document : ℝ), ?_, ?_⟩
    · exact fpDiv_fin_of_ne _ (Nat.cast_ne_zero.mpr hs)
    · exact div_nonneg (Nat.cast_nonneg count) (Nat.cast_nonneg _)

lemma calculateIDF_shape (n df : ℕ) :
    (∃ l : ℝ, calculateIDF n df = .fin l) ∨ calculateIDF n df = .ninf := by
  unfold calculateIDF
  rw [fpDiv_fin_of_ne _ (ne_of_gt (Sego.max_cast_one_pos df))]
  rcases lt_or_eq_of_le
      (div_nonneg (Nat.cast_nonneg n) (le_of_lt (Sego.max_cast_one_pos df)))
    with hpos | hzero
  · exact Or.inl ⟨Real.log _, fpLog_fin_of_pos hpos⟩
  · right
    rw [fpLog, ← hzero]
    simp

lemma calculateIDF_self {n : ℕ} (h : 0 < n) : calculateIDF n n = .fin 0 := by
  unfold calculateIDF
  rw [fpDiv_fin_of_ne _ (ne_of_gt (Sego.max_cast_one_pos n))]
  have hmax : max (n : ℝ) 1 = (n : ℝ) :=
    max_eq_left (by exact_mod_cast h)
  rw [hmax, div_self (by exact_mod_cast h.ne')]
  rw [fpLog_fin_of_pos one_pos, Real.log_one]

lemma not_pos_mul_fin_zero {tf : FP}
    (h : tf = .nan ∨ ∃ a : ℝ, tf = .fin a ∧ 0 ≤ a) :
    ¬ fpLt (.fin 0) (fpMul tf (.fin 0)) := by
  rcases h with h | ⟨a, h, _⟩
  · subst h
    rw [fpMul_nan_left]
    exact fpLt_nan_right _
  · subst h
    rw [fpMul_fin]
    simp [fpLt_fin_iff]

lemma not_pos_mul_ninf {tf : FP}
    (h : tf = .nan ∨ ∃ a : ℝ, tf = .fin a ∧ 0 ≤ a) :
    ¬ fpLt (.fin 0) (fpMul tf .ninf) := by
  rcases h with h | ⟨a, h, ha⟩
  · subst h
    rw [fpMul_nan_left]
    exact fpLt_nan_right _
  · subst h
    have e : fpMul (.fin a) .ninf =
        if 0 < a then FP.ninf else if a = 0 then FP.nan else FP.pinf := rfl
    rw [e]
    rcases lt_or_eq_of_le ha with hpos | hzero
    · rw [if_pos hpos]
      exact fun hlt => hlt
    · rw [if_neg (by rw [← hzero]; exact lt_irrefl 0), if_pos hzero.symm]
      exact fpLt_nan_right _

lemma hasKeyB_of_mem {m : List (String × ℕ)} {e : String × ℕ} (he : e ∈ m) :
    hasKeyB m e.1 = true := by
  unfold hasKeyB
  rw [List.any_eq_true]
  exact ⟨e, he, by simp⟩

lemma numOfDocsWithTerm_singleton {p : String} {doc : Sego.TermFreq}
    {term : String} (h : hasKeyB doc term = true) :
    numOfDocsWithTerm term [(p, doc)] = 1 := by
  unfold numOfDocsWithTerm
  rw [List.filter_cons]
  simp [h]

lemma tfidfStep_of_pos {table : Sego.TermFreqTable} {pd : String × Sego.TermFreq}
    {tc : String × ℕ} (acc : List (String × FP))
    (h : fpLt (.fin 0) (tfidfOf table pd tc)) :
    tfidfStep table pd acc tc = acc ++ [(tc.1, tfidfOf table pd tc)] := by
  unfold tfidfStep
  exact if_pos h

lemma tfidfStep_of_neg {table : Sego.TermFreqTable} {pd : String × Sego.TermFreq}
    {tc : String × ℕ} (acc : List (String × FP))
    (h : ¬ fpLt (.fin 0) (tfidfOf table pd tc)) :
    tfidfStep table pd acc tc = acc := by
  unfold tfidfStep
  exact if_neg h

lemma foldl_tfidfStep_skip (table : Sego.TermFreqTable)
    (pd : String × Sego.TermFreq) :
    ∀ (l : List (String × ℕ)),
      (∀ tc ∈ l, ¬ fpLt (.fin 0) (tfidfOf table pd tc)) →
      ∀ acc, l.foldl (tfidfStep table pd) acc = acc := by
  intro l
  induction l with
  | nil => intro _ acc; rfl
  | cons tc r ih =>
      intro h acc
      show r.foldl (tfidfStep table pd) (tfidfStep table pd acc tc) = acc
      rw [tfidfStep_of_neg acc (h tc (List.mem_cons_self tc r))]
      exact ih (fun x hx => h x (List.mem_cons_of_mem tc hx)) acc

lemma foldl_tfidfStep_pos (table : Sego.TermFreqTable)
    (pd : String × Sego.TermFreq) :
    ∀ (l : List (String × ℕ)), (∀ tc ∈ l, tc.2 ≤ sumOfTerms pd.2) →
      ∀ (acc : List (String × FP)),
        (∀ q ∈ acc, ∃ x, q.2 = FP.fin x ∧ 0 < x) →
        ∀ q ∈ l.foldl (tfidfStep table pd) acc, ∃ x, q.2 = FP.fin x ∧ 0 < x := by
  intro l
  induction l with
  | nil => intro _ acc hacc q hq; exact hacc q hq
  | cons tc r ih =>
      intro hsub acc hacc
      show ∀ q ∈ r.foldl (tfidfStep table pd) (tfidfStep table pd acc tc), _
      refine ih (fun x hx => hsub x (List.mem_cons_of_mem tc hx)) _ ?_
      intro q hq
      by_cases hg : fpLt (.fin 0) (tfidfOf table pd tc)
      · rw [tfidfStep_of_pos acc hg] at hq
        rcases List.mem_append.mp hq with hq | hq
        · exact hacc q hq
        · have hq' : q = (tc.1, tfidfOf table pd tc) := by simpa using hq
          subst hq'
          have hts := hsub tc (List.mem_cons_self tc r)
          rcases calculateTF_shape hts with htf | ⟨a, htf, ha⟩
          · exfalso
            unfold tfidfOf at hg
            rw [htf, fpMul_nan_left] at hg
            exact fpLt_nan_right _ hg
          · rcases calculateIDF_shape table.length (numOfDocsWithTerm tc.1 table)
              with ⟨lg, hidf⟩ | hidf
            · refine ⟨a * lg, ?_, ?_⟩
              · show tfidfOf table pd tc = _
                unfold tfidfOf
                rw [htf, hidf, fpMul_fin]
              · unfold tfidfOf at hg
                rw [htf, hidf, fpMul_fin] at hg
                exact hg
            · exfalso
              unfold tfidfOf at hg
              rw [htf, hidf] at hg
              exact not_pos_mul_ninf (Or.inr ⟨a, rfl, ha⟩) hg
      · rw [tfidfStep_of_neg acc hg] at hq
        exact hacc q hq

lemma foldl_tfidfStep_no_term (table : Sego.TermFreqTable)
    (pd : String × Sego.TermFreq) (term : String)
    (hidf0 : calculateIDF table.length (numOfDocsWithTerm term table) = .fin 0) :
    ∀ (l : List (String × ℕ)), (∀ tc ∈ l, tc.2 ≤ sumOfTerms pd.2) →
      ∀ acc, (∀ v : FP, (term, v) ∉ acc) →
        ∀ v : FP, (term, v) ∉ l.foldl (tfidfStep table pd) acc := by
  intro l
  induction l with
  | nil => intro _ acc hacc v; exact hacc v
  | cons tc r ih =>
      intro hsub acc hacc
      show ∀ v : FP, (term, v) ∉ r.foldl (tfidfStep table pd)
        (tfidfStep table pd acc tc)
      refine ih (fun x hx => hsub x (List.mem_cons_of_mem tc hx)) _ ?_
      intro v hv
      by_cases hg : fpLt (.fin 0) (tfidfOf table pd tc)
      · rw [tfidfStep_of_pos acc hg] at hv
        rcases List.mem_append.mp hv with hv | hv
        · exact hacc v hv
        · have hv' : term = tc.1 ∧ v = tfidfOf table pd tc := by
            simpa [Prod.ext_iff] using hv
          have hterm : tc.1 = term := hv'.1.symm
          have hts := hsub tc (List.mem_cons_self tc r)
          have : ¬ fpLt (.fin 0) (tfidfOf table pd tc) := by
            unfold tfidfOf
            rw [hterm, hidf0]
            exact not_pos_mul_fin_zero (calculateTF_shape hts)
          exact this hg
      · rw [tfidfStep_of_neg acc hg] at hv
        exact hacc v hv

end Batch

/-- C10: a `(document, term)` pair is recorded in the output TF-IDF
table only when its computed `tf * idf` is strictly positive (recorded
values are positive finite reals); consequently a term occurring in
every document of the corpus (`numOfDocsWithTerm = numOfDocs`, so
`idf = ln 1 = 0`) is absent from every document's entry, and in a
single-document corpus every entry is empty. -/
theorem claim_C10 (table : Sego.TermFreqTable) (p : String)
    (inner : List (String × FP))
    (hmem : (p, inner) ∈ Batch.calculateTFIDF table) :
    (∀ term v, (term, v) ∈ inner → ∃ x, v = FP.fin x ∧ 0 < x) ∧
    (∀ term, Batch.numOfDocsWithTerm term table = table.length →
      0 < table.length → ∀ v : FP, (term, v) ∉ inner) ∧
    (∀ doc : Sego.TermFreq, table = [(p, doc)] → inner = []) := by
  obtain ⟨pd, hpd, heq⟩ := List.mem_map.mp hmem
  have hp : pd.1 = p := congrArg Prod.fst heq
  have hinner : inner = pd.2.foldl (Batch.tfidfStep table pd) [] :=
    (congrArg Prod.snd heq).symm
  refine ⟨?_, ?_, ?_⟩
  · intro term v hv
    have := Batch.foldl_tfidfStep_pos table pd pd.2
      (fun tc htc => Batch.mem_le_sumOfTerms htc) [] (by intro q hq; cases hq)
      (term, v) (hinner ▸ hv)
    simpa using this
  · intro term hdf hn v hv
    have hidf0 : Batch.calculateIDF table.length
        (Batch.numOfDocsWithTerm term table) = .fin 0 := by
      rw [hdf]
      exact Batch.calculateIDF_self hn
    exact Batch.foldl_tfidfStep_no_term table pd term hidf0 pd.2
      (fun tc htc => Batch.mem_le_sumOfTerms htc) [] (fun v hv => by cases hv)
      v (hinner ▸ hv)
  · intro doc htab
    subst htab
    have hpd' : pd = (p, doc) := by
      rcases List.mem_singleton.mp hpd with h
      exact h
    subst hpd'
    rw [hinner]
    apply Batch.foldl_tfidfStep_skip
    intro tc htc
    have hkey : hasKeyB doc tc.1 = true := Batch.hasKeyB_of_mem htc
    have hidf0 : Batch.calculateIDF ([((p : String), doc)] :
        Sego.TermFreqTable).length
        (Batch.numOfDocsWithTerm tc.1 [(p, doc)]) = .fin 0 := by
      rw [Batch.numOfDocsWithTerm_singleton hkey]
      exact Batch.calculateIDF_self one_pos
    show ¬ fpLt (.fin 0) (Batch.tfidfOf [(p, doc)] (p, doc) tc)
    unfold Batch.tfidfOf
    rw [hidf0]
    exact Batch.not_pos_mul_fin_zero
      (Batch.calculateTF_shape (Batch.mem_le_sumOfTerms htc))

theorem claim_C10_witness :
    ([("A", 2)] : List (String × ℕ)).foldl
      (Batch.tfidfStep [("p", [("A", 2)])] ("p", [("A", 2)])) [] = [] := by
  have hmem : (("p" : String), ([("A", 2)] : List (String × ℕ)).foldl
      (Batch.tfidfStep [("p", [("A", 2)])] ("p", [("A", 2)])) []) ∈
      Batch.calculateTFIDF [("p", [("A", 2)])] := by
    unfold Batch.calculateTFIDF
    simp
  exact (claim_C10 _ _ _ hmem).2.2 [("A", 2)] rfl

/- ### Claim C4 — search: one scored result per document, descending -/

lemma pairwise_orderedInsert_of {α : Type} (r : α → α → Prop) [DecidableRel r]
    (P : α → Prop) (htot : ∀ a b, P a → P b → r a b ∨ r b a)
    (htrans : ∀ a b c, P a → P b → P c → r a b → r b c → r a c) (a : α) :
    ∀ l : List α, P a → (∀ x ∈ l, P x) → l.Pairwise r →
      (l.orderedInsert r a).Pairwise r := by
  intro l
  induction l with
  | nil =>
      intro _ _ _
      simp
  | cons b t ih =>
      intro hPa hPl hpw
      rw [List.orderedInsert]
      obtain ⟨hbt, hpt⟩ := List.pairwise_cons.mp hpw
      split_ifs with hab
      · rw [List.pairwise_cons]
        refine ⟨?_, hpw⟩
        intro x hx
        rcases List.mem_cons.mp hx with rfl | hx
        · exact hab
        · exact htrans a b x hPa (hPl b (List.mem_cons_self b t))
            (hPl x (List.mem_cons_of_mem b hx)) hab (hbt x hx)
      · rw [List.pairwise_cons]
        constructor
        · intro x hx
          rcases (List.mem_orderedInsert r).mp hx with rfl | hx
          · rcases htot x b hPa (hPl b (List.mem_cons_self b t)) with h | h
            · exact absurd h hab
            · exact h
          · exact hbt x hx
        · exact ih hPa (fun x hx => hPl x (List.mem_cons_of_mem b hx)) hpt

lemma pairwise_insertionSort_of {α : Type} (r : α → α → Prop) [DecidableRel r]
    (P : α → Prop) (htot : ∀ a b, P a → P b → r a b ∨ r b a)
    (htrans : ∀ a b c, P a → P b → P c → r a b → r b c → r a c) :
    ∀ l : List α, (∀ x ∈ l, P x) → (l.insertionSort r).Pairwise r := by
  intro l
  induction l with
  | nil => intro _; simp
  | cons b t ih =>
      intro hP
      rw [List.insertionSort]
      exact pairwise_orderedInsert_of r P htot htrans b _
        (hP b (List.mem_cons_self b t))
        (fun x hx => hP x (List.mem_cons_of_mem b
          ((List.mem_insertionSort r).mp hx)))
        (ih (fun x hx => hP x (List.mem_cons_of_mem b hx)))

lemma scoreDoc_foldl (m : Sego.Model) (tfTable : Sego.TermFreq)
    (hs : Sego.sumOfTerms tfTable ≠ 0) (hn : m.tf ≠ []) :
    ∀ (tokens : List String) (x : ℝ),
      tokens.foldl
        (fun rank token =>
          fpAdd rank (fpMul (Sego.calculateTF token tfTable)
            (Sego.calculateIDF (lookupCount m.df token) m.tf.length)))
        (.fin x) =
      .fin (x + (tokens.map (fun token =>
        Sego.realTF token tfTable *
          Sego.realIDF (lookupCount m.df token) m.tf.length)).sum) := by
  intro tokens
  induction tokens with
  | nil => intro x; simp
  | cons tok toks ih =>
      intro x
      have hlen : 0 < m.tf.length := List.length_pos.mpr hn
      show toks.foldl _
          (fpAdd (.fin x) (fpMul (Sego.calculateTF tok tfTable)
            (Sego.calculateIDF (lookupCount m.df tok) m.tf.length))) = _
      rw [Sego.calculateTF_of_sum_ne_zero tok hs,
        Sego.calculateIDF_fin _ hlen, fpMul_fin, fpAdd_fin, ih]
      rw [List.map_cons, List.sum_cons]
      congr 1
      ring

lemma scoreDoc_eq (m : Sego.Model) (tokens : List String)
    (tfTable : Sego.TermFreq) (hs : Sego.sumOfTerms tfTable ≠ 0)
    (hn : m.tf ≠ []) :
    Sego.scoreDoc m tokens tfTable = .fin (Sego.realScore m tokens tfTable) := by
  unfold Sego.scoreDoc Sego.realScore
  rw [scoreDoc_foldl m tfTable hs hn tokens 0, zero_add]

/-- C4 (amended): for every model in which every document's term-count
mapping has a nonzero total (no indexed empty document) and every query
text whose tokenization completes without a lexer fault, `search`
returns exactly one result per document of the model — documents
scoring exactly zero included, since no result is filtered — whose
score is the sum over all query tokens (duplicates counted each time)
of `TF * IDF`, and the returned list is sorted by descending score. -/
theorem claim_C4 (m : Sego.Model) (tokens : List String) (query : String)
    (hq : tokenize query.toList = some tokens)
    (hne : ∀ pd ∈ m.tf, Sego.sumOfTerms pd.2 ≠ 0) :
    ∃ res : List Sego.SearchResult,
      Sego.search m query = some res ∧
      res.Perm (m.tf.map (fun pd =>
        ⟨pd.1, FP.fin (Sego.realScore m tokens pd.2)⟩)) ∧
      res.length = m.tf.length ∧
      res.Pairwise (fun a b => fpLe b.rank a.rank) := by
  have hsearch : Sego.search m query =
      some ((m.tf.map (fun pd =>
        (⟨pd.1, Sego.scoreDoc m tokens pd.2⟩ : Sego.SearchResult))).insertionSort
          (fun a b => ¬ fpLt a.rank b.rank)) := by
    unfold Sego.search
    rw [hq]
  have hpresort : m.tf.map (fun pd =>
      (⟨pd.1, Sego.scoreDoc m tokens pd.2⟩ : Sego.SearchResult)) =
      m.tf.map (fun pd =>
        (⟨pd.1, FP.fin (Sego.realScore m tokens pd.2)⟩ : Sego.SearchResult)) := by
    apply List.map_congr_left
    intro pd hpd
    rw [scoreDoc_eq m tokens pd.2 (hne pd hpd) (List.ne_nil_of_mem hpd)]
  refine ⟨_, hsearch, ?_, ?_, ?_⟩
  · rw [hpresort]
    exact List.perm_insertionSort _ _
  · rw [hpresort]
    calc _ = (m.tf.map (fun pd =>
          (⟨pd.1, FP.fin (Sego.realScore m tokens pd.2)⟩ :
            Sego.SearchResult))).length :=
        (List.perm_insertionSort _ _).length_eq
      _ = m.tf.length := List.length_map _ _
  · have hsorted : ((m.tf.map (fun pd =>
        (⟨pd.1, Sego.scoreDoc m tokens pd.2⟩ : Sego.SearchResult))).insertionSort
          (fun a b => ¬ fpLt a.rank b.rank)).Pairwise
        (fun a b => ¬ fpLt a.rank b.rank) := by
      apply pairwise_insertionSort_of _ (fun q => ∃ y, q.rank = FP.fin y)
      · rintro a b ⟨x, hx⟩ ⟨y, hy⟩
        rw [hx, hy]
        simp only [fpLt_fin_iff]
        rcases le_or_lt y x with h | h
        · exact Or.inl (not_lt.mpr h)
        · exact Or.inr (not_lt.mpr (le_of_lt h))
      · rintro a b c ⟨x, hx⟩ ⟨y, hy⟩ ⟨z, hz⟩ hab hbc
        rw [hx, hy] at hab
        rw [hy, hz] at hbc
        rw [hx, hz]
        simp only [fpLt_fin_iff] at *
        exact not_lt.mpr (le_trans (not_lt.mp hbc) (not_lt.mp hab))
      · intro q hq'
        rw [hpresort] at hq'
        obtain ⟨pd, _, hpd⟩ := List.mem_map.mp hq'
        exact ⟨Sego.realScore m tokens pd.2, by rw [← hpd]⟩
    refine hsorted.imp_of_mem ?_
    intro a b ha hb hr
    have hmem : ∀ q ∈ (m.tf.map (fun pd =>
        (⟨pd.1, Sego.scoreDoc m tokens pd.2⟩ : Sego.SearchResult))).insertionSort
          (fun a b => ¬ fpLt a.rank b.rank), ∃ y, q.rank = FP.fin y := by
      intro q hq'
      rw [List.mem_insertionSort, hpresort] at hq'
      obtain ⟨pd, _, hpd⟩ := List.mem_map.mp hq'
      exact ⟨Sego.realScore m tokens pd.2, by rw [← hpd]⟩
    obtain ⟨x, hx⟩ := hmem a ha
    obtain ⟨y, hy⟩ := hmem b hb
    rw [hx, hy] at hr ⊢
    simp only [fpLt_fin_iff] at hr
    exact not_lt.mp hr

theorem claim_C4_witness :
    tokenize ("a".toList) = some ["A"] ∧
    (∀ pd ∈ ([("d2", [("A", 1)])] : Sego.TermFreqTable),
      Sego.sumOfTerms pd.2 ≠ 0) ∧
    ∃ res : List Sego.SearchResult,
      Sego.search ⟨[("d2", [("A", 1)])], [("A", 1)]⟩ "a" = some res ∧
      res.length = 1 := by
  have h := claim_C4 ⟨[("d2", [("A", 1)])], [("A", 1)]⟩ ["A"] "a" (by decide)
    (by decide)
  obtain ⟨res, h1, _, h3, _⟩ := h
  exact ⟨by decide, by decide, res, h1, by simpa using h3⟩

/-- C4 (counterexample): the claim as stated fails for a model
containing an indexed empty document.  With documents
`d1 ↦ {}` and `d2 ↦ {A: 1}` and query `"a"`, `search` returns `d1`
with rank NaN (not the claim's real-valued sum, which would be 0)
listed *before* `d2` with rank `ln 2 > 0`: the output is not sorted by
descending score — NaN compares false against everything, so no order
of these results would be. -/
theorem claim_C4_counterexample :
    Sego.search ⟨[("d1", []), ("d2", [("A", 1)])], [("A", 1)]⟩ "a" =
      some [⟨"d1", FP.nan⟩, ⟨"d2", FP.fin (Real.log 2)⟩] ∧
    ¬ fpLe (FP.fin (Real.log 2)) FP.nan ∧
    ¬ ([(⟨"d1", FP.nan⟩ : Sego.SearchResult), ⟨"d2", FP.fin (Real.log 2)⟩] :
        List Sego.SearchResult).Pairwise (fun a b => fpLe b.rank a.rank) := by
  set mC : Sego.Model := ⟨[("d1", []), ("d2", [("A", 1)])], [("A", 1)]⟩
    with hmC
  have hd1 : Sego.scoreDoc mC ["A"] [] = FP.nan := by
    unfold Sego.scoreDoc
    simp only [List.foldl_cons, List.foldl_nil]
    rw [Sego.calculateTF_nil, fpMul_nan_left, fpAdd_nan_right]
  have hd2 : Sego.scoreDoc mC ["A"] [("A", 1)] = FP.fin (Real.log 2) := by
    rw [scoreDoc_eq mC ["A"] [("A", 1)] (by decide) (by simp [hmC])]
    congr 1
    unfold Sego.realScore Sego.realTF Sego.realIDF
    rw [List.map_cons, List.map_nil, List.sum_cons, List.sum_nil,
      show lookupCount [("A", 1)] "A" = 1 from rfl,
      show Sego.sumOfTerms [("A", 1)] = 1 from rfl,
      show mC.tf.length = 2 from rfl]
    norm_num
  have hpre : mC.tf.map (fun pd =>
      (⟨pd.1, Sego.scoreDoc mC ["A"] pd.2⟩ : Sego.SearchResult)) =
      [⟨"d1", FP.nan⟩, ⟨"d2", FP.fin (Real.log 2)⟩] := by
    show [(⟨"d1", Sego.scoreDoc mC ["A"] []⟩ : Sego.SearchResult),
      ⟨"d2", Sego.scoreDoc mC ["A"] [("A", 1)]⟩] = _
    rw [hd1, hd2]
  have hsort : ([(⟨"d1", FP.nan⟩ : Sego.SearchResult),
      ⟨"d2", FP.fin (Real.log 2)⟩] :
        List Sego.SearchResult).insertionSort
        (fun a b => ¬ fpLt a.rank b.rank) =
      [⟨"d1", FP.nan⟩, ⟨"d2", FP.fin (Real.log 2)⟩] := by
    rw [List.insertionSort, List.insertionSort, List.insertionSort,
      List.orderedInsert_nil, List.orderedInsert,
      if_pos (fpLt_nan_left (FP.fin (Real.log 2)))]
  refine ⟨?_, fpLe_nan_right _, ?_⟩
  · have hsearch : Sego.search mC "a" =
        some ((mC.tf.map (fun pd =>
          (⟨pd.1, Sego.scoreDoc mC ["A"] pd.2⟩ :
            Sego.SearchResult))).insertionSort
            (fun a b => ¬ fpLt a.rank b.rank)) := by
      unfold Sego.search
      rw [show tokenize ("a".toList) = some ["A"] from by decide]
    rw [hsearch, hpre, hsort]
  · intro h
    exact fpLe_nan_right _ ((List.pairwise_cons.mp h).1 _
      (List.mem_cons_self _ _))
